import Mathlib

/-!
Verification of the primus-rooms-metroplex-adapter membership tracker.

The adapter (src/lib/primus-rooms-metroplex-adapter.js) keeps two Redis-backed
indices: a room-membership set per (namespace, server instance, room) and a
spark-room set per (namespace, spark id).  We embed the Redis store as an
association list from keys to string sets, the adapter operations as pure
functions on that store, and Redis SCAN pattern matching as a glob matcher
with the star wildcard.
-/

namespace PrimusRoomsMetroplex

/-- Glob matching for Redis SCAN MATCH patterns, over character lists.
The star wildcard matches any (possibly empty) character sequence; every
other character matches itself literally.  (The adapter only ever builds
patterns whose wildcard positions are stars.)  The star case succeeds when
the rest of the pattern matches some suffix of the string. -/
def globMatch : List Char → List Char → Bool
  | [], s => s.isEmpty
  | p :: ps, s =>
    if p = '*' then s.tails.any (fun t => globMatch ps t)
    else
      match s with
      | [] => false
      | c :: ss => (p = c) && globMatch ps ss

/-- Glob matching lifted to strings. -/
def globMatchStr (pat s : String) : Bool := globMatch pat.data s.data

/-- The shared store: a list of (key, set members) pairs.  Redis keys are
unique; a `Nodup` hypothesis on the key list is carried where a theorem
needs that store invariant. -/
abbrev Store := List (String × List String)

/-- The store holding no keys. -/
def emptyStore : Store := []

/-- Models Redis SMEMBERS: the members of the set at `k`, `[]` when the key
is absent. -/
def smembers : Store → String → List String
  | [], _ => []
  | (k', ms) :: rest, k => if k' = k then ms else smembers rest k

/-- Models Redis SADD of one member: adds `m` to the set at `k`, creating
the key when absent; sets hold no duplicate members. -/
def sadd : Store → String → String → Store
  | [], k, m => [(k, [m])]
  | (k', ms) :: rest, k, m =>
    if k' = k then (k', if m ∈ ms then ms else ms ++ [m]) :: rest
    else (k', ms) :: sadd rest k m

/-- Models Redis SREM of one member: removes `m` from the set at `k`.
Redis drops a set key whose last member is removed, so an emptied entry is
deleted. -/
def srem : Store → String → String → Store
  | [], _, _ => []
  | (k', ms) :: rest, k, m =>
    if k' = k then
      if ms.filter (fun x => x ≠ m) = [] then rest
      else (k', ms.filter (fun x => x ≠ m)) :: rest
    else (k', ms) :: srem rest k m

/-- Models Redis DEL of a key. -/
def delKey (st : Store) (k : String) : Store := st.filter (fun e => e.1 ≠ k)

/-- Models Redis EXPIRE.  Key TTL bookkeeping is not tracked by the
embedding (the TTL arithmetic is modelled separately below), so re-arming a
TTL leaves the store contents unchanged. -/
def expire (st : Store) (_k : String) : Store := st

/-- Models `_keysMatchingPattern` run against the store: every key of the
store matching the glob pattern, as SCAN enumerates a stable keyspace. -/
def scanPattern (st : Store) (pat : String) : List String :=
  (st.map Prod.fst).filter (fun k => globMatchStr pat k)

/-- Models `_setMembersForKeys`: reads each key's set (the SSCAN loop on a
stable set yields its members) and concatenates the results. -/
def setMembersForKeys (st : Store) (keys : List String) : List String :=
  (keys.map (fun k => smembers st k)).flatten

/-- Models `_roomSparkSetKey`: the room membership key
`{namespace}:rooms:{serverInstance}:{room}`. -/
def roomSparkSetKey (ns inst room : String) : String :=
  ns ++ ":rooms:" ++ inst ++ ":" ++ room

/-- Models `_sparkRoomSetKey`: the spark key `{namespace}:sparks:{sparkId}`. -/
def sparkRoomSetKey (ns id : String) : String :=
  ns ++ ":sparks:" ++ id

/-- Models JavaScript `key.split(given ':')` on the key's characters: the
maximal colon-free segments, with empty segments kept. -/
def splitColon : List Char → List (List Char)
  | [] => [[]]
  | c :: rest =>
    if c = ':' then [] :: splitColon rest
    else
      match splitColon rest with
      | [] => [[c]]
      | g :: gs => (c :: g) :: gs

/-- Models `parts[parts.length - 1]` after `key.split(given ':')`: the
segment after the final colon. -/
def lastColonPart (s : String) : String :=
  String.mk ((splitColon s.data).getLastD [])

/-- Models lodash `uniq` (first occurrence kept), via a seen accumulator. -/
def uniqAux : List String → List String → List String
  | _, [] => []
  | seen, x :: xs => if x ∈ seen then uniqAux seen xs else x :: uniqAux (x :: seen) xs

/-- Models lodash `uniq`. -/
def uniqList (l : List String) : List String := uniqAux [] l

/-- Models `add` (lines 67-79): one batch doing SADD on the room key,
EXPIRE, SADD on the spark key, EXPIRE. -/
def add (st : Store) (ns inst id room : String) : Store :=
  expire
    (sadd (expire (sadd st (roomSparkSetKey ns inst room) id) (roomSparkSetKey ns inst room))
      (sparkRoomSetKey ns id) room)
    (sparkRoomSetKey ns id)

/-- Models `get` (lines 87-102).  With a spark id: SMEMBERS of the spark
key.  Without: scan all room keys, map each to the segment after its final
colon, and deduplicate. -/
def get (st : Store) (ns : String) (id : Option String) : List String :=
  match id with
  | some i => smembers st (sparkRoomSetKey ns i)
  | none => uniqList ((scanPattern st (ns ++ ":rooms:*:*")).map lastColonPart)

/-- Models `del` (lines 110-139).  With a room: SREM from both indices.
Without: read the spark's rooms, then one batch that SREMs the spark from
the key built from the absent room (JavaScript interpolates `undefined` as
the string "undefined"), SREMs it from each of its rooms' keys on this
instance, and DELs the spark's own key. -/
def del (st : Store) (ns inst id : String) (room : Option String) : Store :=
  match room with
  | some r => srem (srem st (roomSparkSetKey ns inst r) id) (sparkRoomSetKey ns id) r
  | none =>
    let roomsForUser := smembers st (sparkRoomSetKey ns id)
    let st1 := srem st (roomSparkSetKey ns inst "undefined") id
    let st2 := roomsForUser.foldl (fun acc r => srem acc (roomSparkSetKey ns inst r) id) st1
    delKey st2 (sparkRoomSetKey ns id)

/-- Models `clients` (lines 195-205): scan the room's membership keys
across every server instance and concatenate their members. -/
def clients (st : Store) (ns room : String) : List String :=
  setMembersForKeys st (scanPattern st (ns ++ ":rooms:*:" ++ room))

/-- Models `isEmpty` (lines 243-248): true when no room membership key
matches on any instance. -/
def isEmpty (st : Store) (ns room : String) : Bool :=
  (scanPattern st (ns ++ ":rooms:*:" ++ room)).length == 0

/-- Models lodash `compact` on the per-command error slots. -/
def compact (l : List (Option String)) : List String := l.filterMap id

/-- Models `_validateMultiResults` (lines 373-381): each batched command
outcome is an (error slot, value) pair; any non-empty error slot yields one
combined error whose message is the JavaScript string conversion of the
compacted error array (elements joined by commas). -/
def validateMultiResults (results : List (Option String × String)) : Option String :=
  let errors := results.map Prod.fst
  if errors.any Option.isSome then some (String.intercalate "," (compact errors)) else none

/-- A JavaScript value as broadcast sees it: an array, a string, a number,
or `undefined`. -/
inductive JsVal where
  | arr : List JsVal → JsVal
  | str : List Char → JsVal
  | num : Int → JsVal
  | jsUndefined : JsVal

/-- Models the JavaScript expression `data[0]`: the first element of a
non-empty array, the first character of a non-empty string, and
`undefined` for an empty array or string or a number.  (Indexing
`undefined` itself would throw in JavaScript; the case is mapped to
`undefined` here and no theorem relies on it.) -/
def index0 : JsVal → JsVal
  | .arr (x :: _) => x
  | .arr [] => .jsUndefined
  | .str (c :: _) => .str [c]
  | .str [] => .jsUndefined
  | .num _ => .jsUndefined
  | .jsUndefined => .jsUndefined

/-- Models the default transformer of `broadcast` (line 155),
`data => data[0]`. -/
def jsDefaultTransformer (data : JsVal) : JsVal := index0 data

/-- Models `MAX_SPARK_FORWARDS_PER_BATCH` (line 6). -/
def MAX_SPARK_FORWARDS_PER_BATCH : Nat := 50000

/-- Models lodash `chunk`: consecutive slices of `n` elements, the last
slice possibly shorter. -/
def chunkList (n : Nat) : List String → List (List String)
  | [] => []
  | x :: xs => (x :: xs).take n :: chunkList n (xs.drop (n - 1))
termination_by l => l.length
decreasing_by simp only [List.length_drop, List.length_cons]; omega

/-- Models lodash `without`: removes every occurrence of the given values. -/
def without (l exceptIds : List String) : List String :=
  l.filter (fun x => !(exceptIds.contains x))

/-- The first non-`none` outcome of a list of per-call outcomes; models the
error an `async.each` over the calls reports. -/
def firstSome : List (Option String) → Option String
  | [] => none
  | some e :: _ => some e
  | none :: rest => firstSome rest

/-- Models `_sendToSparks` (lines 383-391): chunk the spark ids into
batches of `MAX_SPARK_FORWARDS_PER_BATCH`, hand each batch with the
payload to the forwarding primitive `send`, and report a failing batch's
error. -/
def sendToSparks (send : List String → JsVal → Option String)
    (sparkIds : List String) (data : JsVal) : Option String :=
  firstSome ((chunkList MAX_SPARK_FORWARDS_PER_BATCH sparkIds).map (fun c => send c data))

/-- Models the recipient resolution of `broadcast`'s non-empty-rooms path
(lines 160-172): every requested room's `clients` list concatenated, with
the excluded ids removed. -/
def broadcastRecipients (st : Store) (ns : String) (rooms exceptIds : List String) :
    List String :=
  without ((rooms.map (fun r => clients st ns r)).flatten) exceptIds

/-- The batches `broadcast`'s non-empty-rooms path hands to the forwarding
primitive. -/
def broadcastBatches (st : Store) (ns : String) (rooms exceptIds : List String) :
    List (List String) :=
  chunkList MAX_SPARK_FORWARDS_PER_BATCH (broadcastRecipients st ns rooms exceptIds)

/-- Models `broadcast` with a non-empty room list (lines 151-173): the
transformer (defaulting to `data => data[0]`) is applied to `data` once,
recipients are resolved, and the batches are forwarded. -/
def broadcastWithRooms (st : Store) (ns : String)
    (send : List String → JsVal → Option String) (data : JsVal)
    (transformer : Option (JsVal → JsVal)) (rooms exceptIds : List String) :
    Option String :=
  let transformedData := (transformer.getD jsDefaultTransformer) data
  sendToSparks send (broadcastRecipients st ns rooms exceptIds) transformedData

/-- Models the key parsing of `broadcast`'s no-rooms path (line 183):
`key.substring(prefixLength)` where the dropped length is that of
`{namespace}:sparks:`. -/
def sparkIdFromKey (ns key : String) : String :=
  String.mk (key.data.drop (ns ++ ":sparks:").length)

/-- Models `broadcast` with no rooms (lines 174-186).  The scan outcome is
the store's reply to `_keysMatchingPattern`; the result is `some
outcome` when the caller's callback is invoked with `outcome`, and `none`
when it is never invoked.  On a scan error the code runs `if (err)
return`, so the callback is not invoked and the error goes nowhere. -/
def broadcastAllSparks (scanOutcome : Except String (List String)) (ns : String)
    (send : List String → JsVal → Option String) (data : JsVal)
    (transformer : Option (JsVal → JsVal)) : Option (Option String) :=
  match scanOutcome with
  | .error _ => none
  | .ok keys =>
    some (sendToSparks send (keys.map (fun k => sparkIdFromKey ns k))
      ((transformer.getD jsDefaultTransformer) data))

/-- Models the accumulation loop of `_keysMatchingPattern` (lines 319-340)
against the store's successive SCAN replies, each a (new cursor, keys)
pair: `async.doWhilst` pushes every reply's keys and stops after the reply
whose cursor is "0". -/
def keysMatchingPatternScan : List (String × List String) → List String
  | [] => []
  | (cur, ks) :: rest => ks ++ (if cur = "0" then [] else keysMatchingPatternScan rest)

/-- The SCAN reply batches the loop of `_keysMatchingPattern` consumes: every
reply up to and including the first whose cursor is "0". -/
def scanBatchesUsed : List (String × List String) → List (List String)
  | [] => []
  | (cur, ks) :: rest => ks :: (if cur = "0" then [] else scanBatchesUsed rest)

/-- Models `DEFAULT_ROOM_REFRESH_INTERVAL` (line 8), in milliseconds. -/
def DEFAULT_ROOM_REFRESH_INTERVAL : Nat := 300000

/-- Models `DEFAULT_HEARTBEAT_PING_INTERVAL` (line 14), in milliseconds. -/
def DEFAULT_HEARTBEAT_PING_INTERVAL : Nat := 60000

/-- Models `TTL_REFRESH_DRIFT_FACTOR` (line 17): the literal 1.2, as the
exact rational 6/5. -/
def TTL_REFRESH_DRIFT_FACTOR : ℚ := 6 / 5

/-- Models `this.primus.metroplex.interval || DEFAULT_ROOM_REFRESH_INTERVAL`
(line 46): a missing or zero interval falls back to the default. -/
def effectiveMetroplexInterval (intervalMs : Nat) : Nat :=
  if intervalMs = 0 then DEFAULT_ROOM_REFRESH_INTERVAL else intervalMs

/-- Models `_roomSparkSetTTLSeconds` (lines 45-47):
`Math.ceil(interval / 1000 * TTL_REFRESH_DRIFT_FACTOR)`. -/
def roomSparkSetTTLSeconds (intervalMs : Nat) : Nat :=
  ⌈(effectiveMetroplexInterval intervalMs : ℚ) / 1000 * TTL_REFRESH_DRIFT_FACTOR⌉₊

/-- Models `_sparkRoomSetTTLSeconds` (lines 48-50):
`Math.ceil(DEFAULT_HEARTBEAT_PING_INTERVAL / 1000 * TTL_REFRESH_DRIFT_FACTOR)`. -/
def sparkRoomSetTTLSeconds : Nat :=
  ⌈(DEFAULT_HEARTBEAT_PING_INTERVAL : ℚ) / 1000 * TTL_REFRESH_DRIFT_FACTOR⌉₊

/-- Models the periodic refresher's interval (line 266):
`Math.floor(ttlSeconds / TTL_REFRESH_DRIFT_FACTOR * 1000)` milliseconds. -/
def roomSetRefresherIntervalMs (intervalMs : Nat) : Nat :=
  ⌊(roomSparkSetTTLSeconds intervalMs : ℚ) / TTL_REFRESH_DRIFT_FACTOR * 1000⌋₊

/-! Glob matcher lemmas. -/

/-- A lone star matches every string. -/
theorem globMatch_star_any (s : List Char) : globMatch ['*'] s = true := by
  show (if ('*' : Char) = '*' then s.tails.any (fun t => globMatch [] t) else _) = true
  rw [if_pos rfl]
  exact List.any_eq_true.mpr ⟨[], (List.mem_tails _ _).mpr List.nil_suffix, rfl⟩

/-- A non-star pattern head must match the string head literally. -/
theorem globMatch_cons_ne_star (c : Char) (hc : c ≠ '*') (ps : List Char)
    (c' : Char) (ss : List Char) :
    globMatch (c :: ps) (c' :: ss) = ((c = c') && globMatch ps ss) := by
  show (if c = '*' then (c' :: ss).tails.any (fun t => globMatch ps t) else _) = _
  rw [if_neg hc]

/-- A star followed by `ps` matches any string with a suffix matched by `ps`. -/
theorem globMatch_star_suffix (ps t s : List Char) (hsuf : t <:+ s)
    (h : globMatch ps t = true) : globMatch ('*' :: ps) s = true := by
  show (if ('*' : Char) = '*' then s.tails.any (fun t2 => globMatch ps t2) else _) = true
  rw [if_pos rfl]
  exact List.any_eq_true.mpr ⟨t, (List.mem_tails _ _).mpr hsuf, h⟩

/-- Every pattern matches itself (stars match their own literal). -/
theorem globMatch_refl (l : List Char) : globMatch l l = true := by
  induction l with
  | nil => rfl
  | cons c rest ih =>
    by_cases hc : c = '*'
    · subst hc
      exact globMatch_star_suffix rest rest ('*' :: rest) (List.suffix_cons '*' rest) ih
    · rw [globMatch_cons_ne_star c hc rest c rest]
      simp [ih]

/-- Prepending the same literal prefix to pattern and string preserves a
match. -/
theorem globMatch_append_left (l p s : List Char) (h : globMatch p s = true) :
    globMatch (l ++ p) (l ++ s) = true := by
  induction l with
  | nil => simpa using h
  | cons c rest ih =>
    by_cases hc : c = '*'
    · subst hc
      exact globMatch_star_suffix (rest ++ p) (rest ++ s) ('*' :: (rest ++ s))
        (List.suffix_cons '*' (rest ++ s)) ih
    · rw [List.cons_append, List.cons_append, globMatch_cons_ne_star c hc (rest ++ p) c (rest ++ s)]
      simp [ih]

/-- A shared star-free prefix of pattern and string can be cancelled. -/
theorem globMatch_append_left_iff (l p s : List Char) (hl : '*' ∉ l) :
    globMatch (l ++ p) (l ++ s) = globMatch p s := by
  induction l with
  | nil => rfl
  | cons c rest ih =>
    have hc : c ≠ '*' := fun h => hl (h ▸ List.mem_cons_self c rest)
    have hrest : '*' ∉ rest := fun h => hl (List.mem_cons_of_mem c h)
    rw [List.cons_append, List.cons_append, globMatch_cons_ne_star c hc (rest ++ p) c (rest ++ s)]
    simp [ih hrest]

/-- The room pattern `{ns}:rooms:*:{room}` matches the room key
`{ns}:rooms:{inst}:{room}` of every server instance. -/
theorem roomPattern_matches_roomKey (ns inst room : String) :
    globMatchStr (ns ++ ":rooms:*:" ++ room) (roomSparkSetKey ns inst room) = true := by
  have hp : (ns ++ ":rooms:*:" ++ room).data
      = (ns.data ++ [':', 'r', 'o', 'o', 'm', 's', ':']) ++ ('*' :: ':' :: room.data) := by
    simp [String.data_append]
  have hk : (roomSparkSetKey ns inst room).data
      = (ns.data ++ [':', 'r', 'o', 'o', 'm', 's', ':']) ++ (inst.data ++ (':' :: room.data)) := by
    simp [roomSparkSetKey, String.data_append]
  unfold globMatchStr
  rw [hp, hk]
  apply globMatch_append_left
  exact globMatch_star_suffix (':' :: room.data) (':' :: room.data)
    (inst.data ++ (':' :: room.data)) (List.suffix_append inst.data (':' :: room.data))
    (globMatch_refl (':' :: room.data))

/-- The all-rooms pattern `{ns}:rooms:*:*` matches the room key of every
server instance and room. -/
theorem allRoomsPattern_matches_roomKey (ns inst room : String) :
    globMatchStr (ns ++ ":rooms:*:*") (roomSparkSetKey ns inst room) = true := by
  have hp : (ns ++ ":rooms:*:*").data
      = (ns.data ++ [':', 'r', 'o', 'o', 'm', 's', ':']) ++ ('*' :: ':' :: '*' :: []) := by
    simp [String.data_append]
  have hk : (roomSparkSetKey ns inst room).data
      = (ns.data ++ [':', 'r', 'o', 'o', 'm', 's', ':']) ++ (inst.data ++ (':' :: room.data)) := by
    simp [roomSparkSetKey, String.data_append]
  unfold globMatchStr
  rw [hp, hk]
  apply globMatch_append_left
  apply globMatch_star_suffix (':' :: '*' :: []) (':' :: room.data)
    (inst.data ++ (':' :: room.data)) (List.suffix_append inst.data (':' :: room.data))
  rw [globMatch_cons_ne_star ':' (by decide) ('*' :: []) ':' room.data]
  simp [globMatch_star_any]

/-- The all-rooms pattern `{ns}:rooms:*:*` never matches a spark key
`{ns}:sparks:{id}`, for a namespace free of stars. -/
theorem allRoomsPattern_not_matches_sparkKey (ns id : String) (hns : '*' ∉ ns.data) :
    globMatchStr (ns ++ ":rooms:*:*") (sparkRoomSetKey ns id) = false := by
  have hp : (ns ++ ":rooms:*:*").data
      = ns.data ++ (':' :: 'r' :: 'o' :: 'o' :: 'm' :: 's' :: ':' :: '*' :: ':' :: '*' :: []) := by
    simp [String.data_append]
  have hk : (sparkRoomSetKey ns id).data
      = ns.data ++ (':' :: 's' :: 'p' :: 'a' :: 'r' :: 'k' :: 's' :: ':' :: id.data) := by
    simp [sparkRoomSetKey, String.data_append]
  unfold globMatchStr
  rw [hp, hk]
  rw [globMatch_append_left_iff ns.data _ _ hns]
  rw [globMatch_cons_ne_star ':' (by decide) _ ':' _]
  rw [globMatch_cons_ne_star 'r' (by decide) _ 's' _]
  simp

/-! Store lemmas. -/

/-- SADD puts the member into the target set. -/
theorem smembers_sadd_self (st : Store) (k m : String) : m ∈ smembers (sadd st k m) k := by
  induction st with
  | nil => simp [sadd, smembers]
  | cons e rest ih =>
    obtain ⟨k2, ms⟩ := e
    by_cases h : k2 = k
    · subst h
      by_cases hm : m ∈ ms <;> simp [sadd, smembers, hm]
    · simpa [sadd, smembers, h] using ih

/-- SADD leaves every other set untouched. -/
theorem smembers_sadd_ne (st : Store) (k k2 m : String) (h : k2 ≠ k) :
    smembers (sadd st k m) k2 = smembers st k2 := by
  induction st with
  | nil =>
    have h2 : ¬ (k = k2) := fun hh => h hh.symm
    simp [sadd, smembers, h2]
  | cons e rest ih =>
    obtain ⟨k3, ms⟩ := e
    by_cases h3 : k3 = k
    · have hs : sadd ((k3, ms) :: rest) k m
          = (k3, if m ∈ ms then ms else ms ++ [m]) :: rest := by
        simp [sadd, h3]
      rw [hs]
      have h2 : ¬ (k3 = k2) := fun hh => h (hh.symm.trans h3)
      simp [smembers, h2]
    · have hs : sadd ((k3, ms) :: rest) k m = (k3, ms) :: sadd rest k m := by
        simp [sadd, h3]
      rw [hs]
      by_cases h2 : k3 = k2 <;> simp [smembers, h2, ih]

/-- The keys after SADD: unchanged when the key existed, else the key is
appended. -/
theorem keys_sadd (st : Store) (k m : String) :
    (sadd st k m).map Prod.fst
      = if k ∈ st.map Prod.fst then st.map Prod.fst else st.map Prod.fst ++ [k] := by
  induction st with
  | nil => simp [sadd]
  | cons e rest ih =>
    obtain ⟨k3, ms⟩ := e
    by_cases h3 : k3 = k
    · subst h3
      simp [sadd]
    · have h3s : ¬ (k = k3) := fun hh => h3 hh.symm
      by_cases hk : k ∈ rest.map Prod.fst <;> simp [sadd, h3, h3s, hk, ih]

/-- SADD records its key. -/
theorem mem_keys_sadd_self (st : Store) (k m : String) : k ∈ (sadd st k m).map Prod.fst := by
  rw [keys_sadd]
  by_cases h : k ∈ st.map Prod.fst <;> simp [h]

/-- SADD keeps every existing key. -/
theorem mem_keys_sadd_mono (st : Store) (k m k2 : String) (h : k2 ∈ st.map Prod.fst) :
    k2 ∈ (sadd st k m).map Prod.fst := by
  rw [keys_sadd]
  by_cases hk : k ∈ st.map Prod.fst <;> simp [hk, h]

/-- A room membership key is never a spark key. -/
theorem roomKey_ne_sparkKey (ns inst room id : String) :
    roomSparkSetKey ns inst room ≠ sparkRoomSetKey ns id := by
  intro h
  have hd : (roomSparkSetKey ns inst room).data = (sparkRoomSetKey ns id).data := by rw [h]
  have hr : (roomSparkSetKey ns inst room).data
      = ns.data ++ (':' :: 'r' :: 'o' :: 'o' :: 'm' :: 's' :: ':'
        :: (inst.data ++ (':' :: room.data))) := by
    simp [roomSparkSetKey, String.data_append]
  have hs : (sparkRoomSetKey ns id).data
      = ns.data ++ (':' :: 's' :: 'p' :: 'a' :: 'r' :: 'k' :: 's' :: ':' :: id.data) := by
    simp [sparkRoomSetKey, String.data_append]
  rw [hr, hs] at hd
  have := List.append_cancel_left hd
  simp at this

/-- An absent key reads as the empty set. -/
theorem smembers_eq_nil_of_not_mem_keys (st : Store) (k : String)
    (h : k ∉ st.map Prod.fst) : smembers st k = [] := by
  induction st with
  | nil => rfl
  | cons e rest ih =>
    obtain ⟨k2, ms⟩ := e
    have h2 : ¬ (k2 = k) := fun hh => h (by simp [hh])
    simp only [smembers, if_neg h2]
    exact ih (fun hh => h (by simp [hh]))

/-- A key whose set has a member is an entry of the store, carrying exactly
what SMEMBERS reads. -/
theorem entry_mem_of_mem_smembers (st : Store) (k x : String)
    (h : x ∈ smembers st k) : (k, smembers st k) ∈ st := by
  induction st with
  | nil => simp [smembers] at h
  | cons e rest ih =>
    obtain ⟨k2, ms⟩ := e
    by_cases h2 : k2 = k
    · subst h2
      simp [smembers]
    · simp only [smembers, if_neg h2] at h ⊢
      exact List.mem_cons_of_mem _ (ih h)

/-- SREM's effect on every set, over a store with no duplicate keys: the
target set loses the member (an emptied key vanishing reads the same way),
other sets are untouched. -/
theorem smembers_srem (st : Store) (hnd : (st.map Prod.fst).Nodup) (k k2 m : String) :
    smembers (srem st k m) k2
      = if k2 = k then (smembers st k).filter (fun x => x ≠ m) else smembers st k2 := by
  induction st with
  | nil => by_cases h : k2 = k <;> simp [srem, smembers, h]
  | cons e rest ih =>
    obtain ⟨k3, ms⟩ := e
    have hnd2 : (rest.map Prod.fst).Nodup := (List.nodup_cons.mp (by simpa using hnd)).2
    have hnotin : k3 ∉ rest.map Prod.fst := (List.nodup_cons.mp (by simpa using hnd)).1
    by_cases h3 : k3 = k
    · by_cases hemp : ms.filter (fun x => x ≠ m) = []
      · have hsr : srem ((k3, ms) :: rest) k m = rest := by
          simp only [srem, if_pos h3, if_pos hemp]
        rw [hsr]
        by_cases h2 : k2 = k
        · rw [if_pos h2]
          have hk23 : k2 = k3 := h2.trans h3.symm
          have hmem : smembers ((k3, ms) :: rest) k = ms := by simp [smembers, h3]
          rw [hk23, smembers_eq_nil_of_not_mem_keys rest k3 hnotin, hmem, hemp]
        · rw [if_neg h2]
          have hne : ¬ (k3 = k2) := fun hh => h2 (hh.symm.trans h3)
          simp [smembers, hne]
      · have hsr : srem ((k3, ms) :: rest) k m
            = (k3, ms.filter (fun x => x ≠ m)) :: rest := by
          simp only [srem, if_pos h3, if_neg hemp]
        rw [hsr]
        by_cases h2 : k2 = k
        · have hk32 : k3 = k2 := h3.trans h2.symm
          simp [smembers, hk32, h2]
        · have hne : ¬ (k3 = k2) := fun hh => h2 (hh.symm.trans h3)
          simp [smembers, hne, h2]
    · have hsr : srem ((k3, ms) :: rest) k m = (k3, ms) :: srem rest k m := by
        simp only [srem, if_neg h3]
      rw [hsr]
      by_cases h2 : k2 = k3
      · have hk32 : k3 = k2 := h2.symm
        have hne : ¬ (k2 = k) := fun hh => h3 (h2.symm.trans hh)
        simp [smembers, hk32, hne]
      · have h2s : ¬ (k3 = k2) := fun hh => h2 hh.symm
        simp only [smembers, if_neg h2s, if_neg h3]
        exact ih hnd2

/-- SREM only drops keys. -/
theorem keys_srem_sublist (st : Store) (k m : String) :
    List.Sublist ((srem st k m).map Prod.fst) (st.map Prod.fst) := by
  induction st with
  | nil => simp [srem]
  | cons e rest ih =>
    obtain ⟨k3, ms⟩ := e
    by_cases h3 : k3 = k
    · by_cases hemp : ms.filter (fun x => x ≠ m) = []
      · have hsr : srem ((k3, ms) :: rest) k m = rest := by
          simp only [srem, if_pos h3, if_pos hemp]
        rw [hsr]
        simp only [List.map_cons]
        exact List.sublist_cons_self _ _
      · have hsr : srem ((k3, ms) :: rest) k m
            = (k3, ms.filter (fun x => x ≠ m)) :: rest := by
          simp only [srem, if_pos h3, if_neg hemp]
        rw [hsr]
        simp only [List.map_cons]
        exact List.Sublist.cons₂ k3 (List.Sublist.refl _)
    · have hsr : srem ((k3, ms) :: rest) k m = (k3, ms) :: srem rest k m := by
        simp only [srem, if_neg h3]
      rw [hsr]
      simp only [List.map_cons]
      exact List.Sublist.cons₂ k3 ih

/-- SREM preserves key uniqueness. -/
theorem nodup_keys_srem (st : Store) (hnd : (st.map Prod.fst).Nodup) (k m : String) :
    ((srem st k m).map Prod.fst).Nodup :=
  hnd.sublist (keys_srem_sublist st k m)

/-- SREM never adds a member. -/
theorem mem_smembers_srem (st : Store) (hnd : (st.map Prod.fst).Nodup)
    (k k2 m x : String) (hx : x ∈ smembers (srem st k m) k2) : x ∈ smembers st k2 := by
  rw [smembers_srem st hnd k k2 m] at hx
  by_cases h2 : k2 = k
  · rw [if_pos h2] at hx
    rw [h2]
    exact (List.mem_filter.mp hx).1
  · rwa [if_neg h2] at hx

/-- The deleted key is gone from the key list. -/
theorem not_mem_keys_delKey (st : Store) (k : String) :
    k ∉ (delKey st k).map Prod.fst := by
  intro h
  obtain ⟨e, he, hk⟩ := List.mem_map.mp h
  have h2 := (List.mem_filter.mp he).2
  simp [hk] at h2

/-- DEL empties the deleted key's set. -/
theorem smembers_delKey_self (st : Store) (k : String) : smembers (delKey st k) k = [] :=
  smembers_eq_nil_of_not_mem_keys _ _ (not_mem_keys_delKey st k)

/-- DEL leaves every other set untouched. -/
theorem smembers_delKey_ne (st : Store) (k k2 : String) (h : k2 ≠ k) :
    smembers (delKey st k) k2 = smembers st k2 := by
  induction st with
  | nil => rfl
  | cons e rest ih =>
    obtain ⟨k3, ms⟩ := e
    by_cases h3 : k3 = k
    · have hdk : delKey ((k3, ms) :: rest) k = delKey rest k := by
        simp [delKey, List.filter_cons, h3]
      rw [hdk, ih]
      have hne : ¬ (k3 = k2) := fun hh => h (hh.symm.trans h3)
      simp [smembers, hne]
    · have hdk : delKey ((k3, ms) :: rest) k = (k3, ms) :: delKey rest k := by
        simp [delKey, List.filter_cons, h3]
      rw [hdk]
      by_cases h2 : k3 = k2 <;> simp [smembers, h2, ih]

/-- Folding SREMs over a room list never adds the removed member anywhere. -/
theorem not_mem_smembers_foldl_srem (L : List String) (f : String → String) (m : String)
    (st : Store) (hnd : (st.map Prod.fst).Nodup) (k : String) (h : m ∉ smembers st k) :
    m ∉ smembers (L.foldl (fun acc r => srem acc (f r) m) st) k := by
  induction L generalizing st with
  | nil => exact h
  | cons r rest ih =>
    simp only [List.foldl_cons]
    apply ih (srem st (f r) m) (nodup_keys_srem st hnd (f r) m)
    intro hx
    rw [smembers_srem st hnd (f r) k m] at hx
    by_cases hk : k = f r
    · rw [if_pos hk] at hx
      have h2 := (List.mem_filter.mp hx).2
      simp at h2
    · rw [if_neg hk] at hx
      exact h hx

/-- After folding SREMs over a room list, the member is absent from every
listed room's set. -/
theorem not_mem_smembers_foldl_srem_self (L : List String) (f : String → String)
    (m : String) (st : Store) (hnd : (st.map Prod.fst).Nodup) :
    ∀ r ∈ L, m ∉ smembers (L.foldl (fun acc r2 => srem acc (f r2) m) st) (f r) := by
  induction L generalizing st with
  | nil => intro r hr; simp at hr
  | cons r0 rest ih =>
    intro r hr
    simp only [List.foldl_cons]
    rcases List.mem_cons.mp hr with hr0 | hrr
    · subst hr0
      apply not_mem_smembers_foldl_srem rest f m (srem st (f r) m)
        (nodup_keys_srem st hnd (f r) m)
      rw [smembers_srem st hnd (f r) (f r) m, if_pos rfl]
      intro hx
      have h2 := (List.mem_filter.mp hx).2
      simp at h2
    · exact ih (srem st (f r0) m) (nodup_keys_srem st hnd (f r0) m) r hrr

/-- Folding SREMs never adds a member anywhere. -/
theorem mem_smembers_foldl_srem (L : List String) (f : String → String) (m : String)
    (st : Store) (hnd : (st.map Prod.fst).Nodup) (k x : String)
    (hx : x ∈ smembers (L.foldl (fun acc r => srem acc (f r) m) st) k) :
    x ∈ smembers st k := by
  induction L generalizing st with
  | nil => exact hx
  | cons r rest ih =>
    simp only [List.foldl_cons] at hx
    exact mem_smembers_srem st hnd (f r) k m x
      (ih (srem st (f r) m) (nodup_keys_srem st hnd (f r) m) hx)

/-- Membership of `clients`, introduction form. -/
theorem mem_clients_intro (st : Store) (ns room k x : String)
    (hk : k ∈ st.map Prod.fst) (hg : globMatchStr (ns ++ ":rooms:*:" ++ room) k = true)
    (hx : x ∈ smembers st k) : x ∈ clients st ns room := by
  unfold clients setMembersForKeys
  apply List.mem_flatten.mpr
  refine ⟨smembers st k, ?_, hx⟩
  apply List.mem_map_of_mem
  unfold scanPattern
  exact List.mem_filter.mpr ⟨hk, hg⟩

/-- Membership of `clients`, elimination form. -/
theorem mem_clients_elim (st : Store) (ns room x : String)
    (hx : x ∈ clients st ns room) :
    ∃ k, k ∈ st.map Prod.fst ∧ globMatchStr (ns ++ ":rooms:*:" ++ room) k = true
      ∧ x ∈ smembers st k := by
  unfold clients setMembersForKeys at hx
  obtain ⟨ms, hms, hxm⟩ := List.mem_flatten.mp hx
  obtain ⟨k, hk, rfl⟩ := List.mem_map.mp hms
  unfold scanPattern at hk
  obtain ⟨hk1, hk2⟩ := List.mem_filter.mp hk
  exact ⟨k, hk1, hk2, hxm⟩

/-! Claim theorems. -/

/-- C1: for every spark id S and room name R, after `add(S, R)` completes
successfully, `get(S)` returns a list containing R, and `clients(R)`
returns a list containing S. -/
theorem C1_add_then_get_and_clients (st : Store) (ns inst S R : String) :
    R ∈ get (add st ns inst S R) ns (some S)
      ∧ S ∈ clients (add st ns inst S R) ns R := by
  have hrs : roomSparkSetKey ns inst R ≠ sparkRoomSetKey ns S :=
    roomKey_ne_sparkKey ns inst R S
  constructor
  · show R ∈ smembers
      (sadd (sadd st (roomSparkSetKey ns inst R) S) (sparkRoomSetKey ns S) R)
      (sparkRoomSetKey ns S)
    exact smembers_sadd_self _ _ _
  · show S ∈ clients
      (sadd (sadd st (roomSparkSetKey ns inst R) S) (sparkRoomSetKey ns S) R) ns R
    apply mem_clients_intro _ ns R (roomSparkSetKey ns inst R) S
    · exact mem_keys_sadd_mono _ _ _ _ (mem_keys_sadd_self st _ _)
    · exact roomPattern_matches_roomKey ns inst R
    · rw [smembers_sadd_ne _ _ _ _ hrs]
      exact smembers_sadd_self _ _ _


/-- A key present in the key list is an entry of the store, carrying
exactly what SMEMBERS reads. -/
theorem entry_mem_of_mem_keys (st : Store) (k : String) (h : k ∈ st.map Prod.fst) :
    (k, smembers st k) ∈ st := by
  induction st with
  | nil => simp at h
  | cons e rest ih =>
    obtain ⟨k2, ms⟩ := e
    by_cases h2 : k2 = k
    · subst h2
      simp [smembers]
    · simp only [smembers, if_neg h2]
      apply List.mem_cons_of_mem
      apply ih
      have h4 : k = k2 ∨ ∃ x, (k, x) ∈ rest := by simpa using h
      rcases h4 with h3 | ⟨x, hx⟩
      · exact absurd h3.symm h2
      · exact List.mem_map.mpr ⟨(k, x), hx, rfl⟩

/-- C4: for every room name R, `isEmpty(R)` returns true if and only if
`clients(R)` returns an empty list, both evaluated against the same store
state across all server instances.  (The store invariant used is Redis's:
an existing set key is never empty.) -/
theorem C4_isEmpty_iff_clients_empty (st : Store) (ns room : String)
    (hne : ∀ e ∈ st, e.2 ≠ []) :
    (isEmpty st ns room = true) ↔ clients st ns room = [] := by
  unfold isEmpty
  rw [beq_iff_eq, List.length_eq_zero]
  constructor
  · intro h
    unfold clients setMembersForKeys
    rw [h]
    rfl
  · intro h
    cases hsp : scanPattern st (ns ++ ":rooms:*:" ++ room) with
    | nil => rfl
    | cons k ks =>
      exfalso
      have hk : k ∈ st.map Prod.fst := by
        have hmem : k ∈ scanPattern st (ns ++ ":rooms:*:" ++ room) := by
          rw [hsp]
          exact List.mem_cons_self k ks
        unfold scanPattern at hmem
        exact (List.mem_filter.mp hmem).1
      have hentry := entry_mem_of_mem_keys st k hk
      have hmem2 : smembers st k ≠ [] := hne _ hentry
      unfold clients setMembersForKeys at h
      rw [hsp] at h
      simp only [List.map_cons, List.flatten_cons] at h
      exact hmem2 (List.append_eq_nil.mp h).1

/-- C4 witness: a store with one registered membership. -/
theorem C4_witness :
    (∀ e ∈ add emptyStore "nsp" "i1" "s1" "r1", e.2 ≠ []) ∧
    ((isEmpty (add emptyStore "nsp" "i1" "s1" "r1") "nsp" "r1" = true)
      ↔ clients (add emptyStore "nsp" "i1" "s1" "r1") "nsp" "r1" = []) :=
  ⟨by decide, C4_isEmpty_iff_clients_empty _ "nsp" "r1" (by decide)⟩

/-- C3: `del(S)` with the room argument absent reads S's room set, batches
the removal of S from those rooms' sets and the deletion of S's own set;
afterwards `get(S)` is empty and S is absent from `clients(R)` for every
room R it previously belonged to.  The store is assumed well-indexed for
S: keys are unique, and every set containing S is this instance's
membership set for a room recorded in S's spark set. -/
theorem C3_del_without_room (st : Store) (ns inst S : String)
    (hnd : (st.map Prod.fst).Nodup)
    (hmirror : ∀ e ∈ st, S ∈ e.2 →
      ∃ r ∈ smembers st (sparkRoomSetKey ns S), e.1 = roomSparkSetKey ns inst r) :
    get (del st ns inst S none) ns (some S) = []
      ∧ ∀ R ∈ smembers st (sparkRoomSetKey ns S),
          S ∉ clients (del st ns inst S none) ns R := by
  have hnd1 : (((srem st (roomSparkSetKey ns inst "undefined") S).map Prod.fst)).Nodup :=
    nodup_keys_srem st hnd _ _
  have hdel : del st ns inst S none
      = delKey ((smembers st (sparkRoomSetKey ns S)).foldl
          (fun acc r => srem acc (roomSparkSetKey ns inst r) S)
          (srem st (roomSparkSetKey ns inst "undefined") S)) (sparkRoomSetKey ns S) := rfl
  constructor
  · show smembers (del st ns inst S none) (sparkRoomSetKey ns S) = []
    rw [hdel]
    exact smembers_delKey_self _ _
  · intro R hR hSc
    rw [hdel] at hSc
    obtain ⟨k, hk, hglob, hS3⟩ := mem_clients_elim _ ns R S hSc
    have hksk : k ≠ sparkRoomSetKey ns S := by
      intro hkk
      rw [hkk, smembers_delKey_self] at hS3
      simp at hS3
    rw [smembers_delKey_ne _ _ k hksk] at hS3
    have hS1 : S ∈ smembers (srem st (roomSparkSetKey ns inst "undefined") S) k :=
      mem_smembers_foldl_srem _ (fun r => roomSparkSetKey ns inst r) S _ hnd1 k S hS3
    have hS0 : S ∈ smembers st k := mem_smembers_srem st hnd _ k S S hS1
    have hent := entry_mem_of_mem_smembers st k S hS0
    obtain ⟨r, hrL, hkr⟩ := hmirror _ hent hS0
    have hkr2 : k = roomSparkSetKey ns inst r := hkr
    have habs := not_mem_smembers_foldl_srem_self (smembers st (sparkRoomSetKey ns S))
      (fun r => roomSparkSetKey ns inst r) S
      (srem st (roomSparkSetKey ns inst "undefined") S) hnd1 r hrL
    rw [hkr2] at hS3
    exact habs hS3

/-- C3 witness: one spark in one room on this instance. -/
theorem C3_witness :
    ((([(roomSparkSetKey "nsp" "i1" "r1", ["s1"]),
        (sparkRoomSetKey "nsp" "s1", ["r1"])] : Store).map Prod.fst).Nodup ∧
      (∀ e ∈ ([(roomSparkSetKey "nsp" "i1" "r1", ["s1"]),
        (sparkRoomSetKey "nsp" "s1", ["r1"])] : Store), "s1" ∈ e.2 →
        ∃ r ∈ smembers [(roomSparkSetKey "nsp" "i1" "r1", ["s1"]),
            (sparkRoomSetKey "nsp" "s1", ["r1"])] (sparkRoomSetKey "nsp" "s1"),
          e.1 = roomSparkSetKey "nsp" "i1" r)) ∧
    (get (del [(roomSparkSetKey "nsp" "i1" "r1", ["s1"]),
        (sparkRoomSetKey "nsp" "s1", ["r1"])] "nsp" "i1" "s1" none) "nsp" (some "s1") = []
      ∧ ∀ R ∈ smembers [(roomSparkSetKey "nsp" "i1" "r1", ["s1"]),
          (sparkRoomSetKey "nsp" "s1", ["r1"])] (sparkRoomSetKey "nsp" "s1"),
          "s1" ∉ clients (del [(roomSparkSetKey "nsp" "i1" "r1", ["s1"]),
            (sparkRoomSetKey "nsp" "s1", ["r1"])] "nsp" "i1" "s1" none) "nsp" R) :=
  ⟨⟨by decide, by decide⟩,
    C3_del_without_room _ "nsp" "i1" "s1" (by decide) (by decide)⟩

/-- `splitColon` never returns the empty list of segments. -/
theorem splitColon_ne_nil (l : List Char) : splitColon l ≠ [] := by
  induction l with
  | nil => simp [splitColon]
  | cons c rest ih =>
    by_cases hc : c = ':'
    · simp [splitColon, hc]
    · cases hsp : splitColon rest with
      | nil => simp [splitColon, hc, hsp]
      | cons g gs => simp [splitColon, hc, hsp]

/-- A colon-free string splits into itself alone. -/
theorem splitColon_noColon (l : List Char) (h : ∀ c ∈ l, c ≠ ':') :
    splitColon l = [l] := by
  induction l with
  | nil => rfl
  | cons c rest ih =>
    have hc : c ≠ ':' := h c (List.mem_cons_self c rest)
    have hrest := ih (fun c2 hc2 => h c2 (List.mem_cons_of_mem c hc2))
    simp [splitColon, hc, hrest]

/-- Unfolding equation: a leading colon opens a new empty segment. -/
theorem splitColon_cons_colon (rest : List Char) :
    splitColon (':' :: rest) = [] :: splitColon rest := by
  simp [splitColon]

/-- Unfolding equation: a non-colon head joins the first segment. -/
theorem splitColon_cons_ne (c : Char) (hc : c ≠ ':') (rest g : List Char)
    (gs : List (List Char)) (hsp : splitColon rest = g :: gs) :
    splitColon (c :: rest) = (c :: g) :: gs := by
  simp [splitColon, hc, hsp]

/-- A string containing a colon splits into at least two segments. -/
theorem two_le_splitColon_append (x b : List Char) :
    2 ≤ (splitColon (x ++ ':' :: b)).length := by
  induction x with
  | nil =>
    have hpos : 0 < (splitColon b).length := List.length_pos.mpr (splitColon_ne_nil b)
    rw [List.nil_append, splitColon_cons_colon, List.length_cons]
    omega
  | cons c x2 ih =>
    by_cases hc : c = ':'
    · subst hc
      rw [List.cons_append, splitColon_cons_colon, List.length_cons]
      omega
    · cases hsp : splitColon (x2 ++ ':' :: b) with
      | nil => exact absurd hsp (splitColon_ne_nil _)
      | cons g gs =>
        rw [List.cons_append, splitColon_cons_ne c hc _ g gs hsp, List.length_cons]
        rw [hsp, List.length_cons] at ih
        omega

/-- The last segment of a split is determined by the part after the last
colon. -/
theorem getLastD_splitColon_append (x b : List Char) :
    (splitColon (x ++ ':' :: b)).getLastD [] = (splitColon b).getLastD [] := by
  induction x with
  | nil =>
    rw [List.nil_append, splitColon_cons_colon, List.getLastD_cons]
  | cons c x2 ih =>
    by_cases hc : c = ':'
    · subst hc
      rw [List.cons_append, splitColon_cons_colon, List.getLastD_cons]
      exact ih
    · cases hsp : splitColon (x2 ++ ':' :: b) with
      | nil => exact absurd hsp (splitColon_ne_nil _)
      | cons g gs =>
        have hlen : 2 ≤ (splitColon (x2 ++ ':' :: b)).length := two_le_splitColon_append x2 b
        rw [hsp] at hlen
        cases gs with
        | nil => simp at hlen
        | cons g2 gs2 =>
          rw [List.cons_append, splitColon_cons_ne c hc _ g (g2 :: gs2) hsp]
          rw [List.getLastD_cons, List.getLastD_cons]
          rw [hsp] at ih
          rw [List.getLastD_cons, List.getLastD_cons] at ih
          exact ih

/-- The room-name segment `get` derives from a room key is the part of the
room name after its final colon. -/
theorem lastColonPart_roomKey (ns inst a b : String) (hb : ∀ c ∈ b.data, c ≠ ':') :
    lastColonPart (roomSparkSetKey ns inst (a ++ ":" ++ b)) = b := by
  unfold lastColonPart
  have hdata : (roomSparkSetKey ns inst (a ++ ":" ++ b)).data
      = (ns.data ++ (':' :: 'r' :: 'o' :: 'o' :: 'm' :: 's' :: ':' :: [])
          ++ inst.data ++ (':' :: []) ++ a.data) ++ ':' :: b.data := by
    simp [roomSparkSetKey, String.data_append]
  rw [hdata, getLastD_splitColon_append, splitColon_noColon b.data hb]
  rfl

/-- C10: when `get` is called with no spark id, each room name is derived
from a matching room-membership key as the substring after the key's final
colon; a room whose name contains a colon is therefore returned as only
its trailing segment, never as the full room name. -/
theorem C10_get_all_truncates_colon_rooms (ns inst S a b : String)
    (hns : '*' ∉ ns.data) (hb : ∀ c ∈ b.data, c ≠ ':') :
    get (add emptyStore ns inst S (a ++ ":" ++ b)) ns none = [b]
      ∧ (a ++ ":" ++ b) ∉ get (add emptyStore ns inst S (a ++ ":" ++ b)) ns none := by
  have hne : ¬ (roomSparkSetKey ns inst (a ++ ":" ++ b) = sparkRoomSetKey ns S) :=
    roomKey_ne_sparkKey ns inst (a ++ ":" ++ b) S
  have hstore : add emptyStore ns inst S (a ++ ":" ++ b)
      = [(roomSparkSetKey ns inst (a ++ ":" ++ b), [S]),
         (sparkRoomSetKey ns S, [a ++ ":" ++ b])] := by
    show sadd (sadd [] (roomSparkSetKey ns inst (a ++ ":" ++ b)) S)
      (sparkRoomSetKey ns S) (a ++ ":" ++ b) = _
    simp [sadd, hne]
  have hfirst : get (add emptyStore ns inst S (a ++ ":" ++ b)) ns none = [b] := by
    rw [hstore]
    unfold get scanPattern
    have h1 := allRoomsPattern_matches_roomKey ns inst (a ++ ":" ++ b)
    have h2 := allRoomsPattern_not_matches_sparkKey ns S hns
    simp only [List.map_cons, List.map_nil, List.filter_cons, List.filter_nil, h1, h2]
    simp
    rw [lastColonPart_roomKey ns inst a b hb]
    simp [uniqList, uniqAux]
  refine ⟨hfirst, ?_⟩
  rw [hfirst]
  simp only [List.mem_singleton]
  intro heq
  have hlen := congrArg String.length heq
  rw [String.length_append, String.length_append] at hlen
  have hone : (":" : String).length = 1 := rfl
  rw [hone] at hlen
  omega

/-- C10 witness: a room named `x:y` comes back from `get` as just `y`. -/
theorem C10_witness :
    ('*' ∉ ("room_manager" : String).data ∧ (∀ c ∈ ("y" : String).data, c ≠ ':')) ∧
    (get (add emptyStore "room_manager" "addr_1" "s1" ("x" ++ ":" ++ "y"))
        "room_manager" none = ["y"]
      ∧ ("x" ++ ":" ++ "y") ∉ get (add emptyStore "room_manager" "addr_1" "s1"
          ("x" ++ ":" ++ "y")) "room_manager" none) :=
  ⟨⟨by decide, by decide⟩,
    C10_get_all_truncates_colon_rooms "room_manager" "addr_1" "s1" "x" "y"
      (by decide) (by decide)⟩

/-- C6: the result validator reports success exactly when every outcome's
error slot is empty; otherwise it reports a single combined error carrying
every non-empty error slot (comma-joined), not only the first. -/
theorem C6_validateMultiResults (results : List (Option String × String)) :
    (validateMultiResults results = none ↔ ∀ r ∈ results, r.1 = none)
      ∧ (validateMultiResults results = none
          ∨ validateMultiResults results
              = some (String.intercalate "," (results.filterMap (fun r => r.1)))) := by
  unfold validateMultiResults
  by_cases h : (results.map Prod.fst).any Option.isSome
  · rw [if_pos h]
    constructor
    · constructor
      · intro hh
        simp at hh
      · intro hall
        exfalso
        obtain ⟨o, ho, hos⟩ := List.any_eq_true.mp h
        obtain ⟨r, hr, rfl⟩ := List.mem_map.mp ho
        rw [hall r hr] at hos
        simp at hos
    · right
      congr 1
      unfold compact
      rw [List.filterMap_map]
      rfl
  · rw [if_neg h]
    constructor
    · constructor
      · intro _ r hr
        by_contra hne
        apply h
        apply List.any_eq_true.mpr
        exact ⟨r.1, List.mem_map_of_mem _ hr, Option.isSome_iff_ne_none.mpr hne⟩
      · intro _
        rfl
    · exact Or.inl rfl

/-- C6 witness: two failing commands out of three are both reported. -/
theorem C6_witness :
    validateMultiResults [(some "e1", "v"), (none, "v"), (some "e2", "v")]
      = some "e1,e2" := by
  rcases (C6_validateMultiResults [(some "e1", "v"), (none, "v"), (some "e2", "v")]).2
    with h | h
  · exfalso
    have h2 := (C6_validateMultiResults
      [(some "e1", "v"), (none, "v"), (some "e2", "v")]).1.mp h
    have h3 := h2 (some "e1", "v") (by simp)
    simp at h3
  · rw [h]
    decide

/-- C7 counterexample: a key the store returns in two successive scan
batches appears twice in the accumulated result, so the result is not
duplicate-free. -/
theorem C7_counterexample :
    keysMatchingPatternScan [("1", ["k"]), ("0", ["k"])] = ["k", "k"]
      ∧ (keysMatchingPatternScan [("1", ["k"]), ("0", ["k"])]).count "k" = 2 :=
  ⟨by decide, by decide⟩

/-- C7 amended: the scanning loop concatenates every batch up to and
including the first whose cursor is "0"; duplicate keys across batches
are kept once per returned occurrence, not ignored. -/
theorem C7_scan_keeps_duplicates (responses : List (String × List String)) (k : String) :
    keysMatchingPatternScan responses = (scanBatchesUsed responses).flatten
      ∧ (keysMatchingPatternScan responses).count k
          = ((scanBatchesUsed responses).map (fun b => b.count k)).sum := by
  induction responses with
  | nil => simp [keysMatchingPatternScan, scanBatchesUsed]
  | cons resp rest ih =>
    obtain ⟨cur, ks⟩ := resp
    by_cases h : cur = "0"
    · simp [keysMatchingPatternScan, scanBatchesUsed, h]
    · constructor
      · simp [keysMatchingPatternScan, scanBatchesUsed, h, ih.1]
      · simp only [keysMatchingPatternScan, scanBatchesUsed, if_neg h]
        rw [List.count_append, ih.2]
        simp

/-- C9: the room-set TTL is ceil(intervalSeconds × 1.2) and the spark-set
TTL is ceil(heartbeatSeconds × 1.2) = 72s; for every positive interval the
TTL in milliseconds strictly exceeds the refresh loop's period
floor(TTLSeconds / 1.2 × 1000) ms. -/
theorem C9_ttl_arithmetic (intervalMs : Nat) (hpos : 0 < intervalMs) :
    roomSparkSetTTLSeconds intervalMs = ⌈(intervalMs : ℚ) / 1000 * (6 / 5)⌉₊
      ∧ sparkRoomSetTTLSeconds = ⌈(60000 : ℚ) / 1000 * (6 / 5)⌉₊
      ∧ sparkRoomSetTTLSeconds = 72
      ∧ roomSetRefresherIntervalMs intervalMs < roomSparkSetTTLSeconds intervalMs * 1000 := by
  have heff : effectiveMetroplexInterval intervalMs = intervalMs := by
    unfold effectiveMetroplexInterval
    rw [if_neg (Nat.pos_iff_ne_zero.mp hpos)]
  refine ⟨?_, ?_, ?_, ?_⟩
  · unfold roomSparkSetTTLSeconds TTL_REFRESH_DRIFT_FACTOR
    rw [heff]
  · rfl
  · have h72 : (DEFAULT_HEARTBEAT_PING_INTERVAL : ℚ) / 1000 * TTL_REFRESH_DRIFT_FACTOR
        = 72 := by
      unfold DEFAULT_HEARTBEAT_PING_INTERVAL TTL_REFRESH_DRIFT_FACTOR
      norm_num
    unfold sparkRoomSetTTLSeconds
    rw [h72]
    simp
  · have ht1 : 1 ≤ roomSparkSetTTLSeconds intervalMs := by
      unfold roomSparkSetTTLSeconds
      have hq : (0 : ℚ) < (effectiveMetroplexInterval intervalMs : ℚ) / 1000
          * TTL_REFRESH_DRIFT_FACTOR := by
        rw [heff]
        have hcast : (0 : ℚ) < (intervalMs : ℚ) := by exact_mod_cast hpos
        unfold TTL_REFRESH_DRIFT_FACTOR
        have h1 : (0 : ℚ) < (intervalMs : ℚ) / 1000 := div_pos hcast (by norm_num)
        nlinarith
      exact Nat.ceil_pos.mpr hq
    unfold roomSetRefresherIntervalMs TTL_REFRESH_DRIFT_FACTOR
    have hfl : ⌊(roomSparkSetTTLSeconds intervalMs : ℚ) / (6 / 5) * 1000⌋₊
        = roomSparkSetTTLSeconds intervalMs * 5000 / 6 := by
      have h1 : (roomSparkSetTTLSeconds intervalMs : ℚ) / (6 / 5) * 1000
          = ((roomSparkSetTTLSeconds intervalMs * 5000 : ℕ) : ℚ) / ((6 : ℕ) : ℚ) := by
        push_cast
        ring
      rw [h1]
      exact Nat.floor_div_eq_div (roomSparkSetTTLSeconds intervalMs * 5000) 6
    rw [hfl]
    have h2 : roomSparkSetTTLSeconds intervalMs * 5000
        < roomSparkSetTTLSeconds intervalMs * 1000 * 6 := by nlinarith
    omega

/-- C9 witness: the metroplex interval used by the adapter's own tests. -/
theorem C9_witness :
    0 < 30 ∧ (roomSparkSetTTLSeconds 30 = ⌈(30 : ℚ) / 1000 * (6 / 5)⌉₊
      ∧ sparkRoomSetTTLSeconds = ⌈(60000 : ℚ) / 1000 * (6 / 5)⌉₊
      ∧ sparkRoomSetTTLSeconds = 72
      ∧ roomSetRefresherIntervalMs 30 < roomSparkSetTTLSeconds 30 * 1000) :=
  ⟨by decide, C9_ttl_arithmetic 30 (by decide)⟩

/-- C5 (code bug): in broadcast's no-rooms path a failing key scan is
dropped by `if (err) return`: the caller's callback is never invoked, so
the store error never reaches the caller, although a successful scan
always invokes the callback. -/
theorem C5_broadcast_all_sparks_drops_scan_error
    (e ns : String) (send : List String → JsVal → Option String) (data : JsVal)
    (tf : Option (JsVal → JsVal)) :
    broadcastAllSparks (Except.error e) ns send data tf = none
      ∧ ∀ keys, (broadcastAllSparks (Except.ok keys) ns send data tf).isSome = true :=
  ⟨rfl, fun _ => rfl⟩

/-- Concatenating lodash chunks restores the list (fuel-indexed helper). -/
theorem chunkList_flatten_aux (n : Nat) (h : 1 ≤ n) :
    ∀ (fuel : Nat) (l : List String), l.length ≤ fuel → (chunkList n l).flatten = l := by
  intro fuel
  induction fuel with
  | zero =>
    intro l hl
    have hnil : l = [] := List.length_eq_zero.mp (Nat.le_zero.mp hl)
    subst hnil
    simp [chunkList]
  | succ f ih =>
    intro l hl
    cases l with
    | nil => simp [chunkList]
    | cons x xs =>
      have hstep : chunkList n (x :: xs)
          = (x :: xs).take n :: chunkList n (xs.drop (n - 1)) := by
        simp only [chunkList]
      rw [hstep, List.flatten_cons]
      rw [ih (xs.drop (n - 1)) (by simp only [List.length_drop]; simp at hl; omega)]
      obtain ⟨m, rfl⟩ : ∃ m, n = m + 1 := ⟨n - 1, by omega⟩
      rw [List.take_succ_cons, Nat.add_sub_cancel, List.cons_append,
        List.take_append_drop]

/-- Concatenating lodash chunks restores the list. -/
theorem chunkList_flatten (n : Nat) (h : 1 ≤ n) (l : List String) :
    (chunkList n l).flatten = l :=
  chunkList_flatten_aux n h l.length l (le_refl _)

/-- Each lodash chunk is bounded by the chunk size (fuel-indexed helper). -/
theorem chunkList_length_le_aux (n : Nat) :
    ∀ (fuel : Nat) (l : List String), l.length ≤ fuel →
      ∀ b ∈ chunkList n l, b.length ≤ n := by
  intro fuel
  induction fuel with
  | zero =>
    intro l hl
    have hnil : l = [] := List.length_eq_zero.mp (Nat.le_zero.mp hl)
    subst hnil
    simp [chunkList]
  | succ f ih =>
    intro l hl b hb
    cases l with
    | nil => simp [chunkList] at hb
    | cons x xs =>
      have hstep : chunkList n (x :: xs)
          = (x :: xs).take n :: chunkList n (xs.drop (n - 1)) := by
        simp only [chunkList]
      rw [hstep] at hb
      rcases List.mem_cons.mp hb with hb1 | hb2
      · rw [hb1]
        exact List.length_take_le n (x :: xs)
      · exact ih (xs.drop (n - 1)) (by simp only [List.length_drop]; simp at hl; omega) b hb2

/-- Each lodash chunk is bounded by the chunk size. -/
theorem chunkList_length_le (n : Nat) (l : List String) :
    ∀ b ∈ chunkList n l, b.length ≤ n :=
  chunkList_length_le_aux n l.length l (le_refl _)

/-- `firstSome` reports nothing exactly when no outcome is an error. -/
theorem firstSome_eq_none_iff (l : List (Option String)) :
    firstSome l = none ↔ ∀ o ∈ l, o = none := by
  induction l with
  | nil => simp [firstSome]
  | cons o rest ih =>
    cases o with
    | some e => simp [firstSome]
    | none => simp [firstSome, ih]

/-- A reported error is one of the outcomes. -/
theorem firstSome_eq_some (l : List (Option String)) (e : String)
    (h : firstSome l = some e) : some e ∈ l := by
  induction l with
  | nil => simp [firstSome] at h
  | cons o rest ih =>
    cases o with
    | some e2 =>
      simp [firstSome] at h
      subst h
      exact List.mem_cons_self _ _
    | none =>
      simp only [firstSome] at h
      exact List.mem_cons_of_mem _ (ih h)

/-- C2: broadcasting to rooms [R1, R2] excluding E hands the forwarding
primitive exactly the spark ids of `clients(R1) ∪ clients(R2) − E`, each
with the transformed payload, in batches of at most 50000 ids, and a
failing batch's error is the broadcast's error. -/
theorem C2_broadcast_two_rooms (st : Store) (ns : String)
    (send : List String → JsVal → Option String) (data : JsVal) (tf : JsVal → JsVal)
    (R1 R2 : String) (E : List String) :
    ((broadcastBatches st ns [R1, R2] E).flatten
        = without (clients st ns R1 ++ clients st ns R2) E)
      ∧ (∀ id2, id2 ∈ (broadcastBatches st ns [R1, R2] E).flatten
          ↔ ((id2 ∈ clients st ns R1 ∨ id2 ∈ clients st ns R2) ∧ id2 ∉ E))
      ∧ (∀ b ∈ broadcastBatches st ns [R1, R2] E, b.length ≤ MAX_SPARK_FORWARDS_PER_BATCH)
      ∧ broadcastWithRooms st ns send data (some tf) [R1, R2] E
          = firstSome ((broadcastBatches st ns [R1, R2] E).map (fun b => send b (tf data)))
      ∧ (broadcastWithRooms st ns send data (some tf) [R1, R2] E = none
          ↔ ∀ b ∈ broadcastBatches st ns [R1, R2] E, send b (tf data) = none)
      ∧ (broadcastWithRooms st ns send data (some tf) [R1, R2] E = none
          ∨ ∃ b ∈ broadcastBatches st ns [R1, R2] E,
              send b (tf data) = broadcastWithRooms st ns send data (some tf) [R1, R2] E) := by
  have hflat : (broadcastBatches st ns [R1, R2] E).flatten
      = without (clients st ns R1 ++ clients st ns R2) E := by
    unfold broadcastBatches broadcastRecipients
    rw [chunkList_flatten MAX_SPARK_FORWARDS_PER_BATCH (by unfold MAX_SPARK_FORWARDS_PER_BATCH; omega)]
    congr 1
    simp
  have hsend : broadcastWithRooms st ns send data (some tf) [R1, R2] E
      = firstSome ((broadcastBatches st ns [R1, R2] E).map (fun b => send b (tf data))) := rfl
  refine ⟨hflat, ?_, ?_, hsend, ?_, ?_⟩
  · intro id2
    rw [hflat]
    unfold without
    rw [List.mem_filter]
    simp [List.mem_append]
  · intro b hb
    unfold broadcastBatches at hb
    exact chunkList_length_le _ _ b hb
  · rw [hsend, firstSome_eq_none_iff]
    constructor
    · intro hall b hb
      exact hall (send b (tf data)) (List.mem_map_of_mem _ hb)
    · intro hall o ho
      obtain ⟨b, hb, rfl⟩ := List.mem_map.mp ho
      exact hall b hb
  · cases hres : broadcastWithRooms st ns send data (some tf) [R1, R2] E with
    | none => exact Or.inl rfl
    | some e =>
      right
      rw [hsend] at hres
      obtain ⟨b, hb, hbe⟩ := List.mem_map.mp (firstSome_eq_some _ e hres)
      exact ⟨b, hb, by rw [hbe, ← hres, ← hsend]⟩

/-- C8 counterexample: with non-array data the default transformer yields
`undefined`, not the data unchanged. -/
theorem C8_counterexample :
    jsDefaultTransformer (JsVal.num 5) = JsVal.jsUndefined
      ∧ jsDefaultTransformer (JsVal.num 5) ≠ JsVal.num 5 :=
  ⟨rfl, fun h => JsVal.noConfusion h⟩

/-- C8 amended: the default transformer computes `data[0]`: the first
element of a non-empty array, `undefined` for an empty array or a number,
and a one-character string for a non-empty string — it is not the identity
on non-array data.  It is applied once, before recipients are resolved,
and every forwarded batch carries that single transformed payload. -/
theorem C8_default_transformer (st : Store) (ns : String)
    (send : List String → JsVal → Option String) (x : JsVal) (xs : List JsVal)
    (cs : List Char) (i : Int) (rooms E : List String) :
    jsDefaultTransformer (JsVal.arr (x :: xs)) = x
      ∧ jsDefaultTransformer (JsVal.arr []) = JsVal.jsUndefined
      ∧ jsDefaultTransformer (JsVal.num i) = JsVal.jsUndefined
      ∧ (∀ c : Char, jsDefaultTransformer (JsVal.str (c :: cs)) = JsVal.str [c])
      ∧ (∀ data : JsVal, broadcastWithRooms st ns send data none rooms E
          = firstSome ((broadcastBatches st ns rooms E).map
              (fun b => send b (jsDefaultTransformer data)))) :=
  ⟨rfl, rfl, rfl, fun _ => rfl, fun _ => rfl⟩

end PrimusRoomsMetroplex
